import Mathlib

/-!
Shallow embedding of `src/ractor/src/serialization.rs`: the `BytesConvertable`
codec catalog (big-endian fixed-width numerics, bool, char, String, unit, and
the vectorized codecs), together with theorems about its round-trip and
error-handling behaviour.

Modelling conventions:
* a Rust byte is a `Nat` (< 256 for bytes actually produced by the code);
* unsigned integers `uN` are `Nat` values `< 256 ^ W` where `W = N / 8`;
* signed integers `iN` are `Int` values in `[-(256^W)/2, (256^W)/2)`;
* `f32`/`f64` are handled through `to_be_bytes`/`from_be_bytes`, which act on
  the IEEE-754 bit pattern, so they are modelled by that bit pattern as a
  `Nat < 256 ^ W`;
* a Rust `char` is its Unicode scalar value as a `Nat`; a `String` is the
  list of scalar values of its characters (its UTF-8 bytes are recomputed by
  `utf8Encode`);
* panics in `from_bytes` (out-of-range slice, `Option::unwrap`,
  `Result::unwrap`) are modelled as `Except.error` with the matching
  `DecodeError` kind; `from_bytes` paths that cannot panic stay total.
-/

namespace Ractor

/-- Failure kinds of the decode paths: the slice-index panic on short input,
the `char::from_u32(..).unwrap()` panic, and the `String::from_utf8(..).unwrap()`
panic. -/
inductive DecodeError where
  | truncated
  | invalidScalar
  | malformedText
deriving DecidableEq

/-- Big-endian bytes of an unsigned value, width `W` bytes: models
`<uN>::to_be_bytes` (most significant byte first). -/
def toBeBytes : Nat → Nat → List Nat
  | 0, _ => []
  | W + 1, v => v / 256 ^ W % 256 :: toBeBytes W v

/-- Big-endian reconstruction from a byte list: models `<uN>::from_be_bytes`
on an exact-width buffer. -/
def fromBeBytes (bytes : List Nat) : Nat :=
  bytes.foldl (fun acc b => acc * 256 + b) 0

/-- Signed reinterpretation of the big-endian reconstruction: models
`<iN>::from_be_bytes` (two's complement, width `W` bytes). -/
def fromBeSigned (W : Nat) (bytes : List Nat) : Int :=
  let u := fromBeBytes bytes
  if u < 256 ^ W / 2 then (u : Int) else (u : Int) - 256 ^ W

namespace Unsigned

/-- Macro `implement_numeric`, `into_bytes` for `uN` (`self.to_be_bytes().to_vec()`). -/
def into_bytes (W v : Nat) : List Nat := toBeBytes W v

/-- Macro `implement_numeric`, `from_bytes` for `uN`: copies `bytes[..W]` into a
`W`-byte buffer (panics when fewer than `W` bytes are supplied) and applies
`from_be_bytes`. -/
def from_bytes (W : Nat) (bytes : List Nat) : Except DecodeError Nat :=
  if W ≤ bytes.length then .ok (fromBeBytes (bytes.take W)) else .error .truncated

end Unsigned

namespace Signed

/-- Macro `implement_numeric`, `into_bytes` for `iN`: two's-complement
big-endian bytes. -/
def into_bytes (W : Nat) (v : Int) : List Nat :=
  toBeBytes W (v.emod (256 ^ W)).toNat

/-- Macro `implement_numeric`, `from_bytes` for `iN`. -/
def from_bytes (W : Nat) (bytes : List Nat) : Except DecodeError Int :=
  if W ≤ bytes.length then .ok (fromBeSigned W (bytes.take W)) else .error .truncated

end Signed

namespace Bool_

/-- Impl for `bool`: one byte, `1` for true, `0` for false. -/
def into_bytes (b : Bool) : List Nat := if b then [1] else [0]

/-- Impl for `bool`: `bytes[0] == 1`; indexing panics on empty input. -/
def from_bytes (bytes : List Nat) : Except DecodeError Bool :=
  match bytes with
  | [] => .error .truncated
  | b :: _ => .ok (b == 1)

end Bool_

/-- Models `char::from_u32`: `some` exactly on Unicode scalar values
(below `0x110000` and outside the surrogate range `0xD800..0xE000`). -/
def char_from_u32 (u : Nat) : Option Nat :=
  if u < 0x110000 ∧ ¬(0xD800 ≤ u ∧ u < 0xE000) then some u else none

namespace Char_

/-- Impl for `char`: `self as u32` then the `u32` encoding. -/
def into_bytes (c : Nat) : List Nat := Unsigned.into_bytes 4 c

/-- Impl for `char`: decode a `u32`, then `char::from_u32(u).unwrap()`
(the unwrap panic is the invalid-scalar failure). -/
def from_bytes (bytes : List Nat) : Except DecodeError Nat :=
  match Unsigned.from_bytes 4 bytes with
  | .error e => .error e
  | .ok u =>
    match char_from_u32 u with
    | some c => .ok c
    | none => .error .invalidScalar

end Char_

namespace Unit_

/-- Impl for `()`: `Vec::new()`. -/
def into_bytes : List Nat := []

/-- Impl for `()`: ignores its input and succeeds. -/
def from_bytes (_ : List Nat) : Unit := ()

end Unit_

/-- Unicode scalar values: the code points a Rust `char` can carry. -/
def isUnicodeScalar (c : Nat) : Bool :=
  decide (c < 0xD800 ∨ (0xE000 ≤ c ∧ c < 0x110000))

/-- UTF-8 bytes of one scalar value (the representation a Rust `String`
stores for each of its chars, returned by the inherent `String::into_bytes`). -/
def utf8EncodeChar (c : Nat) : List Nat :=
  if c < 0x80 then [c]
  else if c < 0x800 then [0xC0 + c / 64, 0x80 + c % 64]
  else if c < 0x10000 then [0xE0 + c / 4096, 0x80 + c / 64 % 64, 0x80 + c % 64]
  else [0xF0 + c / 0x40000, 0x80 + c / 4096 % 64, 0x80 + c / 64 % 64, 0x80 + c % 64]

/-- UTF-8 bytes of a string (concatenation of its chars' encodings). -/
def utf8Encode (s : List Nat) : List Nat :=
  (s.map utf8EncodeChar).flatten

/-- Plain UTF-8 continuation byte test: `0x80..0xBF`. -/
def utf8Cont (b : Nat) : Bool :=
  decide (0x80 ≤ b ∧ b < 0xC0)

/-- First-continuation-byte test of a three-byte sequence: the allowed range
depends on the lead byte so that overlong forms (`0xE0` lead) and surrogates
(`0xED` lead) are rejected. -/
def utf8First3 (b0 b1 : Nat) : Bool :=
  if b0 = 0xE0 then decide (0xA0 ≤ b1 ∧ b1 < 0xC0)
  else if b0 = 0xED then decide (0x80 ≤ b1 ∧ b1 < 0xA0)
  else utf8Cont b1

/-- First-continuation-byte test of a four-byte sequence: the allowed range
depends on the lead byte so that overlong forms (`0xF0` lead) and values above
`0x10FFFF` (`0xF4` lead) are rejected. -/
def utf8First4 (b0 b1 : Nat) : Bool :=
  if b0 = 0xF0 then decide (0x90 ≤ b1 ∧ b1 < 0xC0)
  else if b0 = 0xF4 then decide (0x80 ≤ b1 ∧ b1 < 0x90)
  else utf8Cont b1

/-- Continuation step for a two-byte UTF-8 sequence with lead byte `b0`
(`0xC2..0xDF`; `0xC0`/`0xC1` are rejected earlier as overlong). -/
def utf8Dec2 (b0 : Nat) : List Nat → Option (Nat × List Nat)
  | b1 :: r2 =>
    if utf8Cont b1 then some ((b0 - 0xC0) * 64 + (b1 - 0x80), r2)
    else none
  | [] => none

/-- Continuation step for a three-byte UTF-8 sequence with lead byte `b0`
(`0xE0..0xEF`). -/
def utf8Dec3 (b0 : Nat) : List Nat → Option (Nat × List Nat)
  | b1 :: b2 :: r3 =>
    if utf8First3 b0 b1 && utf8Cont b2 then
      some ((b0 - 0xE0) * 4096 + (b1 - 0x80) * 64 + (b2 - 0x80), r3)
    else none
  | _ => none

/-- Continuation step for a four-byte UTF-8 sequence with lead byte `b0`
(`0xF0..0xF4`). -/
def utf8Dec4 (b0 : Nat) : List Nat → Option (Nat × List Nat)
  | b1 :: b2 :: b3 :: r4 =>
    if utf8First4 b0 b1 && utf8Cont b2 && utf8Cont b3 then
      some ((b0 - 0xF0) * 0x40000 + (b1 - 0x80) * 4096 + (b2 - 0x80) * 64 +
        (b3 - 0x80), r4)
    else none
  | _ => none

/-- Decode one scalar value from lead byte `b0` followed by `r`; returns the
scalar and the unconsumed remainder, or `none` on any ill-formed sequence. -/
def utf8DecodeChar (b0 : Nat) (r : List Nat) : Option (Nat × List Nat) :=
  if b0 < 0x80 then some (b0, r)
  else if b0 < 0xC2 then none
  else if b0 < 0xE0 then utf8Dec2 b0 r
  else if b0 < 0xF0 then utf8Dec3 b0 r
  else if b0 < 0xF5 then utf8Dec4 b0 r
  else none

/-- Fuelled decoding loop (the fuel only bounds recursion depth; one byte at
least is consumed per step, so `length` fuel always suffices). -/
def utf8DecodeLoop : Nat → List Nat → Option (List Nat)
  | _, [] => some []
  | 0, _ :: _ => none
  | fuel + 1, b0 :: r =>
    match utf8DecodeChar b0 r with
    | none => none
    | some cr => (utf8DecodeLoop fuel cr.2).map (fun s => cr.1 :: s)

/-- Strict UTF-8 validation and decoding, as performed by `String::from_utf8`:
rejects overlong forms, surrogates, values above `0x10FFFF`, bad continuation
bytes and truncated sequences. Returns the decoded scalar values. -/
def utf8Decode (bytes : List Nat) : Option (List Nat) :=
  utf8DecodeLoop bytes.length bytes

namespace String_

/-- Impl for `String`: the inherent `String::into_bytes`, i.e. the UTF-8 bytes. -/
def into_bytes (s : List Nat) : List Nat := utf8Encode s

/-- Impl for `String`: `String::from_utf8(bytes).unwrap()` (the unwrap panic on
invalid UTF-8 is the malformed-text failure). -/
def from_bytes (bytes : List Nat) : Except DecodeError (List Nat) :=
  match utf8Decode bytes with
  | some s => .ok s
  | none => .error .malformedText

end String_

/-! Vectorized implementations. -/

/-- Models `result[off*W .. off*W+W].copy_from_slice(chunk)` on a byte vector. -/
def writeWindow (W off : Nat) (chunk res : List Nat) : List Nat :=
  res.take (off * W) ++ chunk ++ res.drop (off * W + W)

namespace VecNum

/-- Macro `implement_vectorized_numeric`, `into_bytes`: allocate
`self.len() * W` zero bytes, then copy each element's `to_be_bytes` into its
window, in iteration order. Generic in the element encoder `enc`. -/
def into_bytes {α : Type} (W : Nat) (enc : α → List Nat) (l : List α) : List Nat :=
  l.enum.foldl (fun res p => writeWindow W p.1 (enc p.2) res)
    (List.replicate (l.length * W) 0)

/-- Macro `implement_vectorized_numeric`, `from_bytes`: `num_el = len / W`
elements, prefill with `MIN`, then overwrite index `off` with the decode of
window `off` for each `off < num_el`. Generic in the element decoder `dec`
and the prefill value `minv`. -/
def from_bytes {α : Type} (W : Nat) (dec : List Nat → α) (minv : α)
    (bytes : List Nat) : List α :=
  (List.range (bytes.length / W)).foldl
    (fun res off => res.set off (dec ((bytes.drop (off * W)).take W)))
    (List.replicate (bytes.length / W) minv)

end VecNum

/-- Instance of the vectorized macro for `Vec<uN>` (`u16..u128`; also the
bit-pattern reading of `Vec<f32>`/`Vec<f64>`). `uN::MIN = 0`. -/
def vecU_into_bytes (W : Nat) (l : List Nat) : List Nat :=
  VecNum.into_bytes W (toBeBytes W) l

/-- Decode half of the vectorized macro for `Vec<uN>`. -/
def vecU_from_bytes (W : Nat) (bytes : List Nat) : List Nat :=
  VecNum.from_bytes W fromBeBytes 0 bytes

/-- Instance of the vectorized macro for `Vec<iN>` (`i8..i128`). -/
def vecI_into_bytes (W : Nat) (l : List Int) : List Nat :=
  VecNum.into_bytes W (Signed.into_bytes W) l

/-- Decode half of the vectorized macro for `Vec<iN>`;
`iN::MIN = -(256^W)/2`. -/
def vecI_from_bytes (W : Nat) (bytes : List Nat) : List Int :=
  VecNum.from_bytes W (fromBeSigned W) (-(256 ^ W / 2 : Int)) bytes

namespace VecU8

/-- Optimized impl for `Vec<u8>`: the identity. -/
def into_bytes (l : List Nat) : List Nat := l

/-- Optimized impl for `Vec<u8>`: the identity. -/
def from_bytes (bytes : List Nat) : List Nat := bytes

end VecU8

/-- The one-byte chunk `let byte = if item then [1u8] else [0u8]` of the
`Vec<bool>` encoder. -/
def encBool (b : Bool) : List Nat := if b then [1] else [0]

namespace VecBool

/-- Impl for `Vec<bool>`: one byte per element, `1` for true, `0` for false,
written by `copy_from_slice` into a zero-filled buffer. -/
def into_bytes (l : List Bool) : List Nat :=
  l.enum.foldl (fun res p => writeWindow 1 p.1 (encBool p.2) res)
    (List.replicate l.length 0)

/-- Impl for `Vec<bool>`: prefill `len` entries with `false`, then set entry
`ptr` to `byte == 1` for each input byte. -/
def from_bytes (bytes : List Nat) : List Bool :=
  bytes.enum.foldl (fun res p => res.set p.1 (p.2 == 1))
    (List.replicate bytes.length false)

end VecBool

/-- Elementwise `char::from_u32(u).unwrap()` over decoded `u32`s: the first
invalid scalar value panics (modelled as the invalid-scalar failure). -/
def mapUnwrapChar : List Nat → Except DecodeError (List Nat)
  | [] => .ok []
  | u :: rest =>
    match char_from_u32 u with
    | none => .error .invalidScalar
    | some c =>
      match mapUnwrapChar rest with
      | .ok cs => .ok (c :: cs)
      | .error e => .error e

namespace VecChar

/-- Impl for `Vec<char>`: map `c as u32` (the scalar value itself) and encode
as `Vec<u32>`. -/
def into_bytes (l : List Nat) : List Nat := vecU_into_bytes 4 l

/-- Impl for `Vec<char>`: decode as `Vec<u32>`, then unwrap
`char::from_u32` on every element. -/
def from_bytes (bytes : List Nat) : Except DecodeError (List Nat) :=
  mapUnwrapChar (vecU_from_bytes 4 bytes)

end VecChar

namespace BlanketSerde

/-- The `blanket_serde` alternate impl of `into_bytes`: returns `vec![]` for
every input value of every type. -/
def into_bytes {α : Type} (_ : α) : List Nat := []

end BlanketSerde

/-! Basic facts about the big-endian primitives. -/

theorem toBeBytes_length (W v : Nat) : (toBeBytes W v).length = W := by
  induction W generalizing v with
  | zero => rfl
  | succ W ih => simp [toBeBytes, ih]

theorem foldl_toBeBytes (W : Nat) : ∀ (v a : Nat),
    (toBeBytes W v).foldl (fun acc b => acc * 256 + b) a = a * 256 ^ W + v % 256 ^ W := by
  induction W with
  | zero => intro v a; simp [toBeBytes, fromBeBytes, Nat.mod_one]
  | succ W ih =>
    intro v a
    simp only [toBeBytes, List.foldl_cons]
    rw [ih]
    have h := @Nat.mod_pow_succ v 256 W
    ring_nf
    ring_nf at h
    omega

theorem fromBeBytes_toBeBytes (W v : Nat) (h : v < 256 ^ W) :
    fromBeBytes (toBeBytes W v) = v := by
  unfold fromBeBytes
  rw [foldl_toBeBytes]
  simp [Nat.mod_eq_of_lt h]

/-! Scalar codec lemmas. -/

theorem unsigned_round (W v : Nat) (h : v < 256 ^ W) :
    Unsigned.from_bytes W (Unsigned.into_bytes W v) = .ok v := by
  unfold Unsigned.from_bytes Unsigned.into_bytes
  rw [if_pos (by rw [toBeBytes_length])]
  rw [List.take_of_length_le (by rw [toBeBytes_length])]
  rw [fromBeBytes_toBeBytes W v h]

theorem pow256_even (W : Nat) (hW : 0 < W) : 256 ^ W % 2 = 0 := by
  cases W with
  | zero => omega
  | succ W' =>
    rw [pow_succ]
    omega

theorem fromBeSigned_into (W : Nat) (hW : 0 < W) (v : Int)
    (h1 : -(256 ^ W : Int) ≤ 2 * v) (h2 : 2 * v < (256 ^ W : Int)) :
    fromBeSigned W (toBeBytes W (v.emod (256 ^ W)).toNat) = v := by
  have hn : ((256 ^ W : Nat) : Int) = (256 ^ W : Int) := by push_cast; ring
  have hNpos : (0 : Int) < 256 ^ W := by positivity
  have hm0 : 0 ≤ v % (256 ^ W : Int) := Int.emod_nonneg v (by omega)
  have hm1 : v % (256 ^ W : Int) < 256 ^ W := Int.emod_lt_of_pos v hNpos
  have heven := pow256_even W hW
  have hu : ((v.emod (256 ^ W)).toNat : Int) = v % (256 ^ W : Int) :=
    Int.toNat_of_nonneg hm0
  have hsplit : v % (256 ^ W : Int) = v ∨ v % (256 ^ W : Int) = v + 256 ^ W := by
    rcases le_or_lt 0 v with hv | hv
    · left
      exact Int.emod_eq_of_lt hv (by omega)
    · right
      have h3 : (v + 256 ^ W * 1) % (256 ^ W : Int) = v % (256 ^ W : Int) :=
        Int.add_mul_emod_self_left v (256 ^ W) 1
      rw [mul_one] at h3
      rw [← h3]
      exact Int.emod_eq_of_lt (by omega) (by omega)
  have hult : (v.emod (256 ^ W)).toNat < 256 ^ W := by omega
  unfold fromBeSigned
  rw [fromBeBytes_toBeBytes _ _ hult]
  by_cases hc : (v.emod (256 ^ W)).toNat < 256 ^ W / 2
  · rw [if_pos hc]
    omega
  · rw [if_neg hc]
    omega

theorem signed_round (W : Nat) (hW : 0 < W) (v : Int)
    (h1 : -(256 ^ W : Int) ≤ 2 * v) (h2 : 2 * v < (256 ^ W : Int)) :
    Signed.from_bytes W (Signed.into_bytes W v) = .ok v := by
  unfold Signed.from_bytes Signed.into_bytes
  rw [if_pos (by rw [toBeBytes_length])]
  rw [List.take_of_length_le (by rw [toBeBytes_length])]
  rw [fromBeSigned_into W hW v h1 h2]

theorem char_from_u32_of_scalar (c : Nat) (h : isUnicodeScalar c = true) :
    char_from_u32 c = some c := by
  unfold char_from_u32
  unfold isUnicodeScalar at h
  rw [if_pos (by simp at h; omega)]

theorem char_round (c : Nat) (h : isUnicodeScalar c = true) :
    Char_.from_bytes (Char_.into_bytes c) = .ok c := by
  unfold Char_.from_bytes Char_.into_bytes
  have hlt : c < 256 ^ 4 := by
    unfold isUnicodeScalar at h
    simp at h
    omega
  rw [unsigned_round 4 c hlt]
  simp [char_from_u32_of_scalar c h]

theorem bool_round (b : Bool) : Bool_.from_bytes (Bool_.into_bytes b) = .ok b := by
  cases b <;> rfl

/-! Vector codec lemmas. -/

theorem foldl_set_range {α : Type} (f : Nat → α) :
    ∀ (n : Nat) (init : List α), n ≤ init.length →
      (List.range n).foldl (fun r off => r.set off (f off)) init
        = (List.range n).map f ++ init.drop n := by
  intro n
  induction n with
  | zero => intro init h; simp
  | succ n ih =>
    intro init h
    rw [List.range_succ, List.foldl_append, List.map_append]
    rw [ih init (by omega)]
    simp only [List.foldl_cons, List.foldl_nil, List.map_cons, List.map_nil]
    rw [List.set_append]
    have hlen : ((List.range n).map f).length = n := by simp
    rw [if_neg (by omega), hlen, Nat.sub_self]
    rw [List.drop_eq_getElem_cons (by omega : n < init.length)]
    rw [List.set_cons_zero]
    simp

theorem vecnum_from_bytes_eq_map {α : Type} (W : Nat) (dec : List Nat → α)
    (minv : α) (bytes : List Nat) :
    VecNum.from_bytes W dec minv bytes
      = (List.range (bytes.length / W)).map
          (fun off => dec ((bytes.drop (off * W)).take W)) := by
  unfold VecNum.from_bytes
  rw [foldl_set_range (fun off => dec ((bytes.drop (off * W)).take W)) _ _ (by simp)]
  simp

theorem writeWindow_length (W k : Nat) (chunk res : List Nat)
    (hc : chunk.length = W) (h : k * W + W ≤ res.length) :
    (writeWindow W k chunk res).length = res.length := by
  unfold writeWindow
  simp [hc]
  omega

theorem foldl_writeWindow {α : Type} (W : Nat) (enc : α → List Nat)
    (hW : ∀ a, (enc a).length = W) :
    ∀ (l : List α) (k : Nat) (res : List Nat), res.length = k * W + l.length * W →
      (l.enumFrom k).foldl (fun r p => writeWindow W p.1 (enc p.2) r) res
        = res.take (k * W) ++ (l.map enc).flatten := by
  intro l
  induction l with
  | nil =>
    intro k res h
    simp only [List.enumFrom_nil, List.foldl_nil, List.map_nil, List.flatten_nil,
      List.append_nil]
    simp at h
    exact (List.take_of_length_le (by omega)).symm
  | cons a l ih =>
    intro k res h
    simp only [List.length_cons] at h
    rw [List.enumFrom_cons, List.foldl_cons]
    have hexp : (l.length + 1) * W = l.length * W + W := by ring
    have hexp2 : (k + 1) * W = k * W + W := by ring
    have hkW : k * W + W ≤ res.length := by omega
    have hres : (writeWindow W k (enc a) res).length = (k + 1) * W + l.length * W := by
      rw [writeWindow_length W k (enc a) res (hW a) hkW]
      rw [h]
      ring
    rw [ih (k + 1) _ hres]
    have hsplit : writeWindow W k (enc a) res
        = (res.take (k * W) ++ enc a) ++ res.drop (k * W + W) := by
      unfold writeWindow
      rw [List.append_assoc]
    have htk : (res.take (k * W) ++ enc a).length = (k + 1) * W := by
      simp [hW a]
      omega
    rw [hsplit, ← htk, List.take_left]
    simp

theorem vecnum_into_bytes_eq_flatten {α : Type} (W : Nat) (enc : α → List Nat)
    (hW : ∀ a, (enc a).length = W) (l : List α) :
    VecNum.into_bytes W enc l = (l.map enc).flatten := by
  unfold VecNum.into_bytes
  have h := foldl_writeWindow W enc hW l 0 (List.replicate (l.length * W) 0) (by simp)
  simpa using h

theorem flatten_map_length {α : Type} (W : Nat) (enc : α → List Nat)
    (hW : ∀ a, (enc a).length = W) (l : List α) :
    ((l.map enc).flatten).length = l.length * W := by
  induction l with
  | nil => simp
  | cons a l ih =>
    simp only [List.map_cons, List.flatten_cons, List.length_append, ih,
      List.length_cons, hW a]
    ring

theorem flatten_drop_take {α : Type} (W : Nat) (enc : α → List Nat)
    (hW : ∀ a, (enc a).length = W) :
    ∀ (l : List α) (i : Nat) (d : α), i < l.length →
      (((l.map enc).flatten).drop (i * W)).take W = enc (l.getD i d) := by
  intro l
  induction l with
  | nil => intro i d h; simp at h
  | cons a l ih =>
    intro i d h
    cases i with
    | zero =>
      simp only [List.map_cons, List.flatten_cons, Nat.zero_mul, List.drop_zero,
        List.getD_cons_zero]
      rw [← hW a]
      exact List.take_left _ _
    | succ i =>
      simp only [List.map_cons, List.flatten_cons, List.getD_cons_succ]
      have hidx : (i + 1) * W = (enc a).length + i * W := by rw [hW]; ring
      rw [hidx, List.drop_append]
      exact ih i d (by simpa using h)

theorem vec_round_general {α : Type} (W : Nat) (hW : 0 < W)
    (enc : α → List Nat) (dec : List Nat → α) (minv : α)
    (hlen : ∀ a, (enc a).length = W) (l : List α)
    (hdec : ∀ a ∈ l, dec (enc a) = a) :
    VecNum.from_bytes W dec minv (VecNum.into_bytes W enc l) = l := by
  rw [vecnum_into_bytes_eq_flatten W enc hlen, vecnum_from_bytes_eq_map]
  rw [flatten_map_length W enc hlen, Nat.mul_div_cancel _ hW]
  apply List.ext_getElem (by simp)
  intro n h1 h2
  simp only [List.getElem_map, List.getElem_range]
  have hn2 : n < l.length := by simpa using h1
  rw [flatten_drop_take W enc hlen l n minv hn2]
  rw [List.getD_eq_getElem l minv hn2]
  exact hdec _ (List.getElem_mem hn2)

theorem foldl_set_enumFrom {α β : Type} (g : β → α) :
    ∀ (l : List β) (k : Nat) (init : List α), init.length = k + l.length →
      (l.enumFrom k).foldl (fun r p => r.set p.1 (g p.2)) init
        = init.take k ++ l.map g := by
  intro l
  induction l with
  | nil =>
    intro k init h
    simp only [List.enumFrom_nil, List.foldl_nil, List.map_nil, List.append_nil]
    simp at h
    exact (List.take_of_length_le (by omega)).symm
  | cons a l ih =>
    intro k init h
    simp only [List.length_cons] at h
    rw [List.enumFrom_cons, List.foldl_cons]
    have hset : init.set k (g a)
        = (init.take k ++ [g a]) ++ init.drop (k + 1) := by
      rw [List.set_eq_take_append_cons_drop, if_pos (by omega)]
      simp
    have hlen : (init.set k (g a)).length = (k + 1) + l.length := by
      simp [List.length_set]; omega
    rw [ih (k + 1) _ hlen]
    rw [hset]
    have htk : ((init.take k ++ [g a]) ++ init.drop (k + 1)).take (k + 1)
        = init.take k ++ [g a] := by
      have hl : (init.take k ++ [g a]).length = k + 1 := by
        simp; omega
      rw [← hl, List.take_left]
    rw [htk]
    simp

theorem vecbool_from_bytes_eq_map (bytes : List Nat) :
    VecBool.from_bytes bytes = bytes.map (fun b => b == 1) := by
  unfold VecBool.from_bytes
  have h := foldl_set_enumFrom (fun b : Nat => b == 1) bytes 0
    (List.replicate bytes.length false) (by simp)
  simpa using h

theorem flatten_map_encBool (l : List Bool) :
    (l.map encBool).flatten = l.map (fun b => if b then 1 else 0) := by
  induction l with
  | nil => rfl
  | cons a l ih => cases a <;> simp [encBool, ih]

theorem vecbool_into_bytes_eq_map (l : List Bool) :
    VecBool.into_bytes l = l.map (fun b => if b then 1 else 0) := by
  unfold VecBool.into_bytes
  have h := foldl_writeWindow 1 encBool (fun b => by cases b <;> rfl) l 0
    (List.replicate l.length 0) (by simp)
  simp only [Nat.zero_mul, List.take_zero, List.nil_append] at h
  rw [show l.enum = l.enumFrom 0 from rfl]
  rw [h, flatten_map_encBool]

theorem vecbool_round (l : List Bool) :
    VecBool.from_bytes (VecBool.into_bytes l) = l := by
  rw [vecbool_into_bytes_eq_map, vecbool_from_bytes_eq_map, List.map_map]
  have : ((fun b : Nat => b == 1) ∘ fun b : Bool => if b then 1 else 0) = id := by
    funext b; cases b <;> rfl
  rw [this, List.map_id]

theorem mapUnwrapChar_ok (l : List Nat) (h : ∀ c ∈ l, isUnicodeScalar c = true) :
    mapUnwrapChar l = .ok l := by
  induction l with
  | nil => rfl
  | cons c l ih =>
    unfold mapUnwrapChar
    rw [char_from_u32_of_scalar c (h c (by simp))]
    rw [ih (fun x hx => h x (by simp [hx]))]

theorem vecU_round (W : Nat) (hW : 0 < W) (l : List Nat)
    (h : ∀ v ∈ l, v < 256 ^ W) :
    vecU_from_bytes W (vecU_into_bytes W l) = l := by
  unfold vecU_from_bytes vecU_into_bytes
  exact vec_round_general W hW (toBeBytes W) fromBeBytes 0 (toBeBytes_length W) l
    (fun v hv => fromBeBytes_toBeBytes W v (h v hv))

theorem vecI_round (W : Nat) (hW : 0 < W) (l : List Int)
    (h : ∀ v ∈ l, -(256 ^ W : Int) ≤ 2 * v ∧ 2 * v < (256 ^ W : Int)) :
    vecI_from_bytes W (vecI_into_bytes W l) = l := by
  unfold vecI_from_bytes vecI_into_bytes
  exact vec_round_general W hW (Signed.into_bytes W) (fromBeSigned W) _
    (fun v => toBeBytes_length W _) l
    (fun v hv => fromBeSigned_into W hW v (h v hv).1 (h v hv).2)

theorem vecChar_round (l : List Nat) (h : ∀ c ∈ l, isUnicodeScalar c = true) :
    VecChar.from_bytes (VecChar.into_bytes l) = .ok l := by
  unfold VecChar.from_bytes VecChar.into_bytes
  rw [vecU_round 4 (by omega) l ?bound]
  case bound =>
    intro v hv
    have := h v hv
    unfold isUnicodeScalar at this
    simp at this
    omega
  exact mapUnwrapChar_ok l h

/-! UTF-8 lemmas for the strict decoder. -/

theorem utf8Dec2_rest (b0 : Nat) (r : List Nat) (cr : Nat × List Nat)
    (h : utf8Dec2 b0 r = some cr) : cr.2.length ≤ r.length := by
  match r with
  | [] => exact Option.noConfusion h
  | b1 :: r2 =>
    simp only [utf8Dec2] at h
    split at h
    · injection h with h2
      subst h2
      simp
    · exact Option.noConfusion h

theorem utf8Dec3_rest (b0 : Nat) (r : List Nat) (cr : Nat × List Nat)
    (h : utf8Dec3 b0 r = some cr) : cr.2.length ≤ r.length := by
  match r with
  | [] => exact Option.noConfusion h
  | [b1] => exact Option.noConfusion h
  | b1 :: b2 :: r3 =>
    simp only [utf8Dec3] at h
    split at h
    · injection h with h2
      subst h2
      simp
      omega
    · exact Option.noConfusion h

theorem utf8Dec4_rest (b0 : Nat) (r : List Nat) (cr : Nat × List Nat)
    (h : utf8Dec4 b0 r = some cr) : cr.2.length ≤ r.length := by
  match r with
  | [] => exact Option.noConfusion h
  | [b1] => exact Option.noConfusion h
  | [b1, b2] => exact Option.noConfusion h
  | b1 :: b2 :: b3 :: r4 =>
    simp only [utf8Dec4] at h
    split at h
    · injection h with h2
      subst h2
      simp
      omega
    · exact Option.noConfusion h

theorem utf8DecodeChar_rest (b0 : Nat) (r : List Nat) (cr : Nat × List Nat)
    (h : utf8DecodeChar b0 r = some cr) : cr.2.length ≤ r.length := by
  unfold utf8DecodeChar at h
  split_ifs at h
  · injection h with h2
    subst h2
    simp
  · exact utf8Dec2_rest b0 r cr h
  · exact utf8Dec3_rest b0 r cr h
  · exact utf8Dec4_rest b0 r cr h

theorem utf8DecodeLoop_fuel : ∀ (f1 : Nat) (bytes : List Nat) (f2 : Nat),
    bytes.length ≤ f1 → bytes.length ≤ f2 →
    utf8DecodeLoop f1 bytes = utf8DecodeLoop f2 bytes := by
  intro f1
  induction f1 with
  | zero =>
    intro bytes f2 h1 h2
    cases bytes with
    | nil => cases f2 <;> rfl
    | cons b0 r => simp at h1
  | succ f1 ih =>
    intro bytes f2 h1 h2
    cases bytes with
    | nil => cases f2 <;> rfl
    | cons b0 r =>
      cases f2 with
      | zero => simp at h2
      | succ f2 =>
        simp only [utf8DecodeLoop]
        cases hdc : utf8DecodeChar b0 r with
        | none => rfl
        | some cr =>
          have hr := utf8DecodeChar_rest b0 r cr hdc
          simp only [List.length_cons] at h1 h2
          simp only []
          rw [ih cr.2 f2 (by omega) (by omega)]

theorem utf8Decode_nil : utf8Decode [] = some [] := rfl

theorem utf8Decode_cons (b0 : Nat) (r : List Nat) :
    utf8Decode (b0 :: r)
      = match utf8DecodeChar b0 r with
        | none => none
        | some cr => (utf8Decode cr.2).map (fun s => cr.1 :: s) := by
  unfold utf8Decode
  simp only [List.length_cons, utf8DecodeLoop]
  cases hdc : utf8DecodeChar b0 r with
  | none => rfl
  | some cr =>
    have hr := utf8DecodeChar_rest b0 r cr hdc
    simp only []
    rw [utf8DecodeLoop_fuel r.length cr.2 cr.2.length (by omega) (by omega)]

theorem utf8Decode_cons_some (b0 : Nat) (r : List Nat) (c : Nat) (rest : List Nat)
    (h : utf8DecodeChar b0 r = some (c, rest)) :
    utf8Decode (b0 :: r) = (utf8Decode rest).map (fun s => c :: s) := by
  rw [utf8Decode_cons, h]

theorem utf8Decode_cons_none (b0 : Nat) (r : List Nat)
    (h : utf8DecodeChar b0 r = none) : utf8Decode (b0 :: r) = none := by
  rw [utf8Decode_cons, h]

theorem utf8DecodeChar_enc1 (c : Nat) (h : c < 0x80) (rest : List Nat) :
    utf8DecodeChar c rest = some (c, rest) := by
  unfold utf8DecodeChar
  rw [if_pos h]

theorem utf8DecodeChar_enc2 (c : Nat) (h1 : 0x80 ≤ c) (h2 : c < 0x800)
    (rest : List Nat) :
    utf8DecodeChar (0xC0 + c / 64) ((0x80 + c % 64) :: rest) = some (c, rest) := by
  unfold utf8DecodeChar
  rw [if_neg (by omega), if_neg (by omega), if_pos (by omega)]
  simp only [utf8Dec2]
  rw [if_pos (by simp [utf8Cont]; omega)]
  simp only [Option.some.injEq, Prod.mk.injEq]
  exact ⟨by omega, trivial⟩

theorem utf8DecodeChar_enc3 (c : Nat) (h1 : 0x800 ≤ c) (h2 : c < 0x10000)
    (hs : ¬(0xD800 ≤ c ∧ c < 0xE000)) (rest : List Nat) :
    utf8DecodeChar (0xE0 + c / 4096)
      ((0x80 + c / 64 % 64) :: (0x80 + c % 64) :: rest) = some (c, rest) := by
  unfold utf8DecodeChar
  rw [if_neg (by omega), if_neg (by omega), if_neg (by omega), if_pos (by omega)]
  simp only [utf8Dec3]
  rw [if_pos ?cond]
  case cond =>
    simp only [Bool.and_eq_true]
    constructor
    · unfold utf8First3 utf8Cont
      split_ifs with he1 he2 <;> simp <;> omega
    · simp [utf8Cont]
      omega
  simp only [Option.some.injEq, Prod.mk.injEq]
  exact ⟨by omega, trivial⟩

theorem utf8DecodeChar_enc4 (c : Nat) (h1 : 0x10000 ≤ c) (h2 : c < 0x110000)
    (rest : List Nat) :
    utf8DecodeChar (0xF0 + c / 0x40000)
      ((0x80 + c / 4096 % 64) :: (0x80 + c / 64 % 64) :: (0x80 + c % 64) :: rest)
      = some (c, rest) := by
  unfold utf8DecodeChar
  rw [if_neg (by omega), if_neg (by omega), if_neg (by omega), if_neg (by omega),
    if_pos (by omega)]
  simp only [utf8Dec4]
  rw [if_pos ?cond]
  case cond =>
    simp only [Bool.and_eq_true]
    refine ⟨⟨?_, ?_⟩, ?_⟩
    · unfold utf8First4 utf8Cont
      split_ifs with he1 he2 <;> simp <;> omega
    · simp [utf8Cont]
      omega
    · simp [utf8Cont]
      omega
  simp only [Option.some.injEq, Prod.mk.injEq]
  exact ⟨by omega, trivial⟩

theorem utf8Decode_encodeChar (c : Nat) (hc : isUnicodeScalar c = true)
    (rest : List Nat) :
    utf8Decode (utf8EncodeChar c ++ rest) = (utf8Decode rest).map (fun s => c :: s) := by
  have hc2 : c < 0xD800 ∨ (0xE000 ≤ c ∧ c < 0x110000) := by
    unfold isUnicodeScalar at hc
    simpa using hc
  unfold utf8EncodeChar
  by_cases h1 : c < 0x80
  · rw [if_pos h1]
    simp only [List.cons_append, List.nil_append]
    exact utf8Decode_cons_some _ _ _ _ (utf8DecodeChar_enc1 c h1 rest)
  · rw [if_neg h1]
    by_cases h2 : c < 0x800
    · rw [if_pos h2]
      simp only [List.cons_append, List.nil_append]
      exact utf8Decode_cons_some _ _ _ _ (utf8DecodeChar_enc2 c (by omega) h2 rest)
    · rw [if_neg h2]
      by_cases h3 : c < 0x10000
      · rw [if_pos h3]
        simp only [List.cons_append, List.nil_append]
        exact utf8Decode_cons_some _ _ _ _
          (utf8DecodeChar_enc3 c (by omega) h3 (by omega) rest)
      · rw [if_neg h3]
        simp only [List.cons_append, List.nil_append]
        exact utf8Decode_cons_some _ _ _ _
          (utf8DecodeChar_enc4 c (by omega) (by omega) rest)

theorem utf8Decode_utf8Encode (s : List Nat) (h : ∀ c ∈ s, isUnicodeScalar c = true) :
    utf8Decode (utf8Encode s) = some s := by
  induction s with
  | nil => rfl
  | cons c s ih =>
    unfold utf8Encode
    simp only [List.map_cons, List.flatten_cons]
    rw [utf8Decode_encodeChar c (h c (by simp)) _]
    rw [show (s.map utf8EncodeChar).flatten = utf8Encode s from rfl]
    rw [ih (fun x hx => h x (by simp [hx]))]
    rfl

theorem utf8DecodeChar_sound (b0 : Nat) (r : List Nat) (c : Nat) (rest : List Nat)
    (h : utf8DecodeChar b0 r = some (c, rest)) :
    utf8EncodeChar c ++ rest = b0 :: r ∧ isUnicodeScalar c = true := by
  unfold utf8DecodeChar at h
  split_ifs at h with h1 h2 h3 h4 h5
  · simp only [Option.some.injEq, Prod.mk.injEq] at h
    obtain ⟨rfl, rfl⟩ := h
    constructor
    · unfold utf8EncodeChar
      rw [if_pos h1]
      simp
    · unfold isUnicodeScalar
      simp
      omega
  · cases r with
    | nil => exact Option.noConfusion h
    | cons b1 r2 =>
      simp only [utf8Dec2] at h
      by_cases hcont : utf8Cont b1 = true
      case neg => rw [if_neg hcont] at h; exact Option.noConfusion h
      rw [if_pos hcont] at h
      simp only [Option.some.injEq, Prod.mk.injEq] at h
      obtain ⟨rfl, rfl⟩ := h
      have hcont2 : 0x80 ≤ b1 ∧ b1 < 0xC0 := by simpa [utf8Cont] using hcont
      constructor
      · unfold utf8EncodeChar
        rw [if_neg (by omega), if_pos (by omega)]
        simp only [List.cons_append, List.nil_append, List.cons.injEq]
        refine ⟨by omega, by omega, trivial⟩
      · unfold isUnicodeScalar
        simp
        omega
  · cases r with
    | nil => exact Option.noConfusion h
    | cons b1 r' =>
      cases r' with
      | nil => exact Option.noConfusion h
      | cons b2 r3 =>
        simp only [utf8Dec3] at h
        by_cases hcond : (utf8First3 b0 b1 && utf8Cont b2) = true
        case neg => rw [if_neg hcond] at h; exact Option.noConfusion h
        rw [if_pos hcond] at h
        simp only [Option.some.injEq, Prod.mk.injEq] at h
        obtain ⟨rfl, rfl⟩ := h
        simp only [Bool.and_eq_true] at hcond
        obtain ⟨hf3, hcB2⟩ := hcond
        have hcB2x : 0x80 ≤ b2 ∧ b2 < 0xC0 := by simpa [utf8Cont] using hcB2
        have hf3x : (b0 = 0xE0 ∧ 0xA0 ≤ b1 ∧ b1 < 0xC0) ∨
            (b0 = 0xED ∧ 0x80 ≤ b1 ∧ b1 < 0xA0) ∨
            (b0 ≠ 0xE0 ∧ b0 ≠ 0xED ∧ 0x80 ≤ b1 ∧ b1 < 0xC0) := by
          unfold utf8First3 utf8Cont at hf3
          split_ifs at hf3 with he1 he2
          · exact Or.inl ⟨he1, by simpa using hf3⟩
          · exact Or.inr (Or.inl ⟨he2, by simpa using hf3⟩)
          · exact Or.inr (Or.inr ⟨he1, he2, by simpa using hf3⟩)
        constructor
        · unfold utf8EncodeChar
          rw [if_neg (by omega), if_neg (by omega), if_pos (by omega)]
          simp only [List.cons_append, List.nil_append, List.cons.injEq]
          refine ⟨by omega, by omega, by omega, trivial⟩
        · unfold isUnicodeScalar
          simp
          omega
  · cases r with
    | nil => exact Option.noConfusion h
    | cons b1 r' =>
      cases r' with
      | nil => exact Option.noConfusion h
      | cons b2 r'' =>
        cases r'' with
        | nil => exact Option.noConfusion h
        | cons b3 r4 =>
          simp only [utf8Dec4] at h
          by_cases hcond : (utf8First4 b0 b1 && utf8Cont b2 && utf8Cont b3) = true
          case neg => rw [if_neg hcond] at h; exact Option.noConfusion h
          rw [if_pos hcond] at h
          simp only [Option.some.injEq, Prod.mk.injEq] at h
          obtain ⟨rfl, rfl⟩ := h
          simp only [Bool.and_eq_true] at hcond
          obtain ⟨⟨hf4, hcB2⟩, hcB3⟩ := hcond
          have hcB2x : 0x80 ≤ b2 ∧ b2 < 0xC0 := by simpa [utf8Cont] using hcB2
          have hcB3x : 0x80 ≤ b3 ∧ b3 < 0xC0 := by simpa [utf8Cont] using hcB3
          have hf4x : (b0 = 0xF0 ∧ 0x90 ≤ b1 ∧ b1 < 0xC0) ∨
              (b0 = 0xF4 ∧ 0x80 ≤ b1 ∧ b1 < 0x90) ∨
              (b0 ≠ 0xF0 ∧ b0 ≠ 0xF4 ∧ 0x80 ≤ b1 ∧ b1 < 0xC0) := by
            unfold utf8First4 utf8Cont at hf4
            split_ifs at hf4 with he1 he2
            · exact Or.inl ⟨he1, by simpa using hf4⟩
            · exact Or.inr (Or.inl ⟨he2, by simpa using hf4⟩)
            · exact Or.inr (Or.inr ⟨he1, he2, by simpa using hf4⟩)
          constructor
          · unfold utf8EncodeChar
            rw [if_neg (by omega), if_neg (by omega), if_neg (by omega)]
            simp only [List.cons_append, List.nil_append, List.cons.injEq]
            refine ⟨by omega, by omega, by omega, by omega, trivial⟩
          · unfold isUnicodeScalar
            simp
            omega

theorem utf8Decode_sound_aux : ∀ (n : Nat) (b : List Nat), b.length ≤ n →
    ∀ s, utf8Decode b = some s →
      utf8Encode s = b ∧ ∀ c ∈ s, isUnicodeScalar c = true := by
  intro n
  induction n with
  | zero =>
    intro b hb s h
    cases b with
    | nil =>
      rw [utf8Decode_nil] at h
      injection h with h2
      subst h2
      exact ⟨rfl, by simp⟩
    | cons b0 r => simp at hb
  | succ n ih =>
    intro b hb s h
    cases b with
    | nil =>
      rw [utf8Decode_nil] at h
      injection h with h2
      subst h2
      exact ⟨rfl, by simp⟩
    | cons b0 r =>
      rw [utf8Decode_cons] at h
      cases hdc : utf8DecodeChar b0 r with
      | none => rw [hdc] at h; exact Option.noConfusion h
      | some cr =>
        rw [hdc] at h
        simp only [Option.map_eq_some'] at h
        obtain ⟨s2, hs2, rfl⟩ := h
        obtain ⟨hchunk, hscal⟩ := utf8DecodeChar_sound b0 r cr.1 cr.2 (by rw [hdc])
        have hlen : cr.2.length ≤ n := by
          have := utf8DecodeChar_rest b0 r cr hdc
          simp only [List.length_cons] at hb
          omega
        obtain ⟨henc, hwf⟩ := ih cr.2 hlen s2 hs2
        constructor
        · show utf8Encode (cr.1 :: s2) = b0 :: r
          unfold utf8Encode
          simp only [List.map_cons, List.flatten_cons]
          rw [show (s2.map utf8EncodeChar).flatten = utf8Encode s2 from rfl, henc]
          exact hchunk
        · intro c hc
          rcases List.mem_cons.mp hc with rfl | hc2
          · exact hscal
          · exact hwf c hc2

theorem utf8Decode_sound (b : List Nat) (s : List Nat) (h : utf8Decode b = some s) :
    utf8Encode s = b ∧ ∀ c ∈ s, isUnicodeScalar c = true :=
  utf8Decode_sound_aux b.length b (le_refl _) s h

/-! Helper lemmas feeding the claim-level theorems. -/

theorem string_round (s : List Nat) (h : ∀ c ∈ s, isUnicodeScalar c = true) :
    String_.from_bytes (String_.into_bytes s) = .ok s := by
  unfold String_.from_bytes String_.into_bytes
  rw [utf8Decode_utf8Encode s h]

theorem unsigned_truncated (W : Nat) (bytes : List Nat) (h : bytes.length < W) :
    Unsigned.from_bytes W bytes = .error .truncated := by
  unfold Unsigned.from_bytes
  rw [if_neg (by omega)]

theorem signed_truncated (W : Nat) (bytes : List Nat) (h : bytes.length < W) :
    Signed.from_bytes W bytes = .error .truncated := by
  unfold Signed.from_bytes
  rw [if_neg (by omega)]

theorem unsigned_prefix_only (W : Nat) (bytes : List Nat) (h : W ≤ bytes.length) :
    Unsigned.from_bytes W bytes = Unsigned.from_bytes W (bytes.take W) := by
  unfold Unsigned.from_bytes
  rw [if_pos h, if_pos (by simp; omega), List.take_take]
  simp

theorem signed_prefix_only (W : Nat) (bytes : List Nat) (h : W ≤ bytes.length) :
    Signed.from_bytes W bytes = Signed.from_bytes W (bytes.take W) := by
  unfold Signed.from_bytes
  rw [if_pos h, if_pos (by simp; omega), List.take_take]
  simp

theorem char_from_u32_of_not_scalar (u : Nat) (h : ¬ isUnicodeScalar u = true) :
    char_from_u32 u = none := by
  unfold char_from_u32
  unfold isUnicodeScalar at h
  rw [if_neg (by simp at h ⊢; omega)]

theorem char_from_bytes_eq (bytes : List Nat) (h : 4 ≤ bytes.length) :
    Char_.from_bytes bytes
      = if isUnicodeScalar (fromBeBytes (bytes.take 4)) = true
        then .ok (fromBeBytes (bytes.take 4))
        else .error .invalidScalar := by
  unfold Char_.from_bytes Unsigned.from_bytes
  rw [if_pos h]
  by_cases hs : isUnicodeScalar (fromBeBytes (bytes.take 4)) = true
  · rw [if_pos hs]
    simp [char_from_u32_of_scalar _ hs]
  · rw [if_neg hs]
    simp [char_from_u32_of_not_scalar _ hs]

theorem map_range_getD {α : Type} (n i : Nat) (f : Nat → α) (d : α) (h : i < n) :
    ((List.range n).map f).getD i d = f i := by
  rw [List.getD_eq_getElem _ _ (by simpa using h)]
  simp

theorem vecnum_length (W : Nat) (dec : List Nat → α) (minv : α) (bytes : List Nat) :
    (VecNum.from_bytes W dec minv bytes).length = bytes.length / W := by
  rw [vecnum_from_bytes_eq_map]
  simp

theorem vecnum_drop_trailing {α : Type} (W : Nat) (hW : 0 < W)
    (dec : List Nat → α) (minv : α) (bytes : List Nat) :
    VecNum.from_bytes W dec minv bytes
      = VecNum.from_bytes W dec minv (bytes.take (bytes.length / W * W)) := by
  rw [vecnum_from_bytes_eq_map, vecnum_from_bytes_eq_map]
  have hle : bytes.length / W * W ≤ bytes.length := Nat.div_mul_le_self _ _
  have hlen : (bytes.take (bytes.length / W * W)).length = bytes.length / W * W := by
    simp
    omega
  rw [hlen, Nat.mul_div_cancel _ hW]
  apply List.map_congr_left
  intro i hi
  have hi2 : i < bytes.length / W := by simpa using hi
  have hwin : ((bytes.take (bytes.length / W * W)).drop (i * W)).take W
      = (bytes.drop (i * W)).take W := by
    rw [List.drop_take, List.take_take]
    have : W ≤ bytes.length / W * W - i * W := by
      have h1 : (i + 1) * W ≤ bytes.length / W * W :=
        Nat.mul_le_mul_right W (by omega)
      have h2 : (i + 1) * W = i * W + W := by ring
      omega
    simp [Nat.min_eq_left this]
  rw [hwin]

/-! Claim-level theorems. -/

/-- C1: for every supported scalar type (unsigned and signed integers of any
byte width, covering `u8..u128`/`i8..i128` and the `f32`/`f64` bit patterns at
widths 4 and 8, plus bool, char, String and unit) and every representable
value, `from_bytes (into_bytes v) = v`. -/
theorem claim1_scalar_round_trip :
    (∀ W v, v < 256 ^ W → Unsigned.from_bytes W (Unsigned.into_bytes W v) = .ok v) ∧
    (∀ W (v : Int), 0 < W → -(256 ^ W : Int) ≤ 2 * v → 2 * v < (256 ^ W : Int) →
      Signed.from_bytes W (Signed.into_bytes W v) = .ok v) ∧
    (∀ b, Bool_.from_bytes (Bool_.into_bytes b) = .ok b) ∧
    (∀ c, isUnicodeScalar c = true → Char_.from_bytes (Char_.into_bytes c) = .ok c) ∧
    (∀ s, (∀ c ∈ s, isUnicodeScalar c = true) →
      String_.from_bytes (String_.into_bytes s) = .ok s) ∧
    Unit_.from_bytes Unit_.into_bytes = () :=
  ⟨unsigned_round, fun W v hW h1 h2 => signed_round W hW v h1 h2, bool_round,
    char_round, string_round, rfl⟩

/-- Witness for C1 at concrete values of each scalar type. -/
theorem claim1_scalar_round_trip_witness :
    (300 : Nat) < 256 ^ 2 ∧
    Unsigned.from_bytes 2 (Unsigned.into_bytes 2 300) = .ok 300 ∧
    Signed.from_bytes 2 (Signed.into_bytes 2 (-2)) = .ok (-2) ∧
    Bool_.from_bytes (Bool_.into_bytes true) = .ok true ∧
    Char_.from_bytes (Char_.into_bytes 0x20AC) = .ok 0x20AC ∧
    String_.from_bytes (String_.into_bytes [104, 105]) = .ok [104, 105] :=
  ⟨by decide,
    claim1_scalar_round_trip.1 2 300 (by decide),
    claim1_scalar_round_trip.2.1 2 (-2) (by decide) (by decide) (by decide),
    claim1_scalar_round_trip.2.2.1 true,
    claim1_scalar_round_trip.2.2.2.1 0x20AC (by decide),
    claim1_scalar_round_trip.2.2.2.2.1 [104, 105] (by decide)⟩

/-- C2: for every supported element type and every finite sequence of
representable elements (including the empty one), the `Vec` codec satisfies
`from_bytes (into_bytes vs) = vs`. -/
theorem claim2_vector_round_trip :
    (∀ W l, 0 < W → (∀ v ∈ l, v < 256 ^ W) →
      vecU_from_bytes W (vecU_into_bytes W l) = l) ∧
    (∀ W (l : List Int), 0 < W →
      (∀ v ∈ l, -(256 ^ W : Int) ≤ 2 * v ∧ 2 * v < (256 ^ W : Int)) →
      vecI_from_bytes W (vecI_into_bytes W l) = l) ∧
    (∀ l, VecU8.from_bytes (VecU8.into_bytes l) = l) ∧
    (∀ l, VecBool.from_bytes (VecBool.into_bytes l) = l) ∧
    (∀ l, (∀ c ∈ l, isUnicodeScalar c = true) →
      VecChar.from_bytes (VecChar.into_bytes l) = .ok l) :=
  ⟨fun W l hW h => vecU_round W hW l h,
    fun W l hW h => vecI_round W hW l h,
    fun _ => rfl, vecbool_round, vecChar_round⟩

/-- Witness for C2 at concrete vectors, including an empty one. -/
theorem claim2_vector_round_trip_witness :
    vecU_from_bytes 2 (vecU_into_bytes 2 [1, 65535]) = [1, 65535] ∧
    vecU_from_bytes 2 (vecU_into_bytes 2 []) = [] ∧
    vecI_from_bytes 2 (vecI_into_bytes 2 [1, -1]) = [1, -1] ∧
    VecBool.from_bytes (VecBool.into_bytes [true, false]) = [true, false] ∧
    VecChar.from_bytes (VecChar.into_bytes [65, 8364]) = .ok [65, 8364] :=
  ⟨claim2_vector_round_trip.1 2 [1, 65535] (by decide) (by decide),
    claim2_vector_round_trip.1 2 [] (by decide) (by decide),
    claim2_vector_round_trip.2.1 2 [1, -1] (by decide) (by decide),
    claim2_vector_round_trip.2.2.2.1 [true, false],
    claim2_vector_round_trip.2.2.2.2 [65, 8364] (by decide)⟩

/-- C3: decoding fewer than `sizeof(T)` bytes for a fixed-width numeric type
(one byte for bool) is a hard failure (the slice-index panic, modelled as the
truncated-input error), never a silently defaulted value. -/
theorem claim3_truncation :
    (∀ W bytes, bytes.length < W → Unsigned.from_bytes W bytes = .error .truncated) ∧
    (∀ W bytes, bytes.length < W → Signed.from_bytes W bytes = .error .truncated) ∧
    (∀ bytes : List Nat, bytes.length < 1 → Bool_.from_bytes bytes = .error .truncated) :=
  ⟨unsigned_truncated, signed_truncated, fun bytes h =>
    match bytes, h with
    | [], _ => rfl⟩

/-- Witness for C3 on concrete short inputs. -/
theorem claim3_truncation_witness :
    Unsigned.from_bytes 4 [1, 2] = .error .truncated ∧
    Signed.from_bytes 2 [255] = .error .truncated ∧
    Bool_.from_bytes [] = .error .truncated :=
  ⟨claim3_truncation.1 4 [1, 2] (by decide),
    claim3_truncation.2.1 2 [255] (by decide),
    claim3_truncation.2.2 [] (by decide)⟩

/-- C4: for inputs of length at least `sizeof(T)`, numeric decode reads only
the first `sizeof(T)` bytes, interpreted big-endian; trailing bytes are
ignored. -/
theorem claim4_prefix_only :
    (∀ W bytes, W ≤ bytes.length →
      Unsigned.from_bytes W bytes = Unsigned.from_bytes W (bytes.take W) ∧
      Unsigned.from_bytes W bytes = .ok (fromBeBytes (bytes.take W))) ∧
    (∀ W bytes, W ≤ bytes.length →
      Signed.from_bytes W bytes = Signed.from_bytes W (bytes.take W) ∧
      Signed.from_bytes W bytes = .ok (fromBeSigned W (bytes.take W))) :=
  ⟨fun W bytes h => ⟨unsigned_prefix_only W bytes h, by
      unfold Unsigned.from_bytes
      rw [if_pos h]⟩,
    fun W bytes h => ⟨signed_prefix_only W bytes h, by
      unfold Signed.from_bytes
      rw [if_pos h]⟩⟩

/-- Witness for C4 on a concrete input with trailing bytes. -/
theorem claim4_prefix_only_witness :
    Unsigned.from_bytes 2 [1, 2, 99, 100] = Unsigned.from_bytes 2 [1, 2] ∧
    Signed.from_bytes 2 [255, 255, 7] = Signed.from_bytes 2 [255, 255] :=
  ⟨(claim4_prefix_only.1 2 [1, 2, 99, 100] (by decide)).1,
    (claim4_prefix_only.2 2 [255, 255, 7] (by decide)).1⟩

/-- C5: every fixed-width scalar encoding has length exactly `sizeof(T)`; the
boolean encoding is one byte, `[1]` for true and `[0]` for false. -/
theorem claim5_fixed_width :
    (∀ W v, (Unsigned.into_bytes W v).length = W) ∧
    (∀ W (v : Int), (Signed.into_bytes W v).length = W) ∧
    (∀ b, (Bool_.into_bytes b).length = 1) ∧
    Bool_.into_bytes true = [1] ∧ Bool_.into_bytes false = [0] ∧
    (∀ c, (Char_.into_bytes c).length = 4) :=
  ⟨toBeBytes_length, fun W v => toBeBytes_length W _,
    fun b => by cases b <;> rfl, rfl, rfl, fun c => toBeBytes_length 4 c⟩

/-- C6: boolean decode of a nonempty input returns true exactly when the first
byte is `1`; any other first byte (not only `0`) decodes to false without
error. -/
theorem claim6_bool_decode :
    ∀ b rest, (Bool_.from_bytes (b :: rest) = .ok true ↔ b = 1) ∧
      (b ≠ 1 → Bool_.from_bytes (b :: rest) = .ok false) := by
  intro b rest
  constructor
  · unfold Bool_.from_bytes
    simp
  · intro h
    unfold Bool_.from_bytes
    simp [h]

/-- Witness for C6: the non-`0`, non-`1` byte `7` decodes to false; `1`
decodes to true. -/
theorem claim6_bool_decode_witness :
    Bool_.from_bytes [7, 9] = .ok false ∧ Bool_.from_bytes [1] = .ok true :=
  ⟨(claim6_bool_decode 7 [9]).2 (by decide),
    (claim6_bool_decode 1 []).1.mpr rfl⟩

/-- C7: char decode reads a big-endian 32-bit value and fails with the
invalid-scalar error exactly when that value is not a Unicode scalar value;
in particular the bytes of `0xD800` fail. -/
theorem claim7_char_invalid :
    (∀ bytes, 4 ≤ bytes.length →
      Char_.from_bytes bytes
        = if isUnicodeScalar (fromBeBytes (bytes.take 4)) = true
          then .ok (fromBeBytes (bytes.take 4))
          else .error .invalidScalar) ∧
    Char_.from_bytes [0x00, 0x00, 0xD8, 0x00] = .error .invalidScalar :=
  ⟨char_from_bytes_eq, rfl⟩

/-- Witness for C7: a valid scalar decodes, exercising the length hypothesis. -/
theorem claim7_char_invalid_witness :
    Char_.from_bytes [0, 0, 0, 65] = .ok 65 :=
  (claim7_char_invalid.1 [0, 0, 0, 65] (by decide)).trans (by rfl)

/-- C9: numeric vector decode of `n` input bytes produces exactly `n / W`
elements, element `i` being the big-endian decode of the `i`-th `W`-byte
window, and a trailing partial window is dropped without any error (the
decoder is total and only reads the first `n / W * W` bytes). -/
theorem claim9_vec_decode_windows :
    ∀ W bytes, 0 < W →
      ((vecU_from_bytes W bytes).length = bytes.length / W ∧
        (∀ i, i < bytes.length / W →
          (vecU_from_bytes W bytes).getD i 0 = fromBeBytes ((bytes.drop (i * W)).take W)) ∧
        vecU_from_bytes W bytes = vecU_from_bytes W (bytes.take (bytes.length / W * W))) ∧
      ((vecI_from_bytes W bytes).length = bytes.length / W ∧
        (∀ i, i < bytes.length / W →
          (vecI_from_bytes W bytes).getD i 0
            = fromBeSigned W ((bytes.drop (i * W)).take W))) := by
  intro W bytes hW
  refine ⟨⟨vecnum_length W _ _ bytes, ?_, vecnum_drop_trailing W hW _ _ bytes⟩,
    vecnum_length W _ _ bytes, ?_⟩
  · intro i hi
    unfold vecU_from_bytes
    rw [vecnum_from_bytes_eq_map]
    exact map_range_getD _ i _ 0 hi
  · intro i hi
    unfold vecI_from_bytes
    rw [vecnum_from_bytes_eq_map]
    exact map_range_getD _ i _ 0 hi

/-- Witness for C9: five bytes at width two give two elements, the trailing
byte is dropped. -/
theorem claim9_vec_decode_windows_witness :
    (vecU_from_bytes 2 [0, 1, 255, 255, 9]).length = 2 ∧
    (vecU_from_bytes 2 [0, 1, 255, 255, 9]).getD 1 0 = fromBeBytes [255, 255] ∧
    vecU_from_bytes 2 [0, 1, 255, 255, 9] = vecU_from_bytes 2 [0, 1, 255, 255] := by
  obtain ⟨hlen, hi, ht⟩ := (claim9_vec_decode_windows 2 [0, 1, 255, 255, 9] (by decide)).1
  exact ⟨hlen, hi 1 (by decide), ht⟩

/-- C10: the `blanket_serde` alternate impl encodes every value of every type
as the empty byte sequence, so no decoder can make its round trip reproduce
two distinct values. -/
theorem claim10_blanket_serde :
    (∀ (α : Type) (v : α), BlanketSerde.into_bytes v = []) ∧
    (∀ (α : Type) (dec : List Nat → α) (a b : α), a ≠ b →
      ¬(dec (BlanketSerde.into_bytes a) = a ∧ dec (BlanketSerde.into_bytes b) = b)) := by
  refine ⟨fun α v => rfl, fun α dec a b hab ⟨ha, hb⟩ => ?_⟩
  unfold BlanketSerde.into_bytes at ha hb
  exact hab (ha.symm.trans hb)

/-- Witness for C10 at two distinct naturals. -/
theorem claim10_blanket_serde_witness :
    ¬((fun _ : List Nat => (0 : Nat)) (BlanketSerde.into_bytes (0 : Nat)) = 0 ∧
      (fun _ : List Nat => (0 : Nat)) (BlanketSerde.into_bytes (1 : Nat)) = 1) :=
  claim10_blanket_serde.2 Nat (fun _ => 0) 0 1 (by decide)

/-- C8: text decode consumes the whole input: whatever string it returns has
exactly the input as its UTF-8 representation, a valid encoding decodes back
to the encoded string, and an input that is no string's UTF-8 encoding fails
with the malformed-text error. -/
theorem claim8_string_decode :
    ∀ (bytes : List Nat) (s : List Nat),
      ((∀ c ∈ s, isUnicodeScalar c = true) →
        String_.from_bytes (String_.into_bytes s) = .ok s) ∧
      (String_.from_bytes bytes = .ok s →
        String_.into_bytes s = bytes ∧ ∀ c ∈ s, isUnicodeScalar c = true) ∧
      ((∀ s2, (∀ c ∈ s2, isUnicodeScalar c = true) → String_.into_bytes s2 ≠ bytes) →
        String_.from_bytes bytes = .error .malformedText) := by
  intro bytes s
  refine ⟨string_round s, ?_, ?_⟩
  · intro h
    have hdec : utf8Decode bytes = some s := by
      unfold String_.from_bytes at h
      cases hd : utf8Decode bytes with
      | none => rw [hd] at h; exact Except.noConfusion h
      | some s2 =>
        rw [hd] at h
        injection h with h2
        rw [h2]
    exact utf8Decode_sound bytes s hdec
  · intro hno
    unfold String_.from_bytes
    cases hd : utf8Decode bytes with
    | none => rfl
    | some s2 =>
      obtain ⟨henc, hwf⟩ := utf8Decode_sound bytes s2 hd
      exact absurd henc (hno s2 hwf)

/-- Witness for C8: a valid two-byte ASCII input round trips; the lone
continuation byte `0x80` is rejected. -/
theorem claim8_string_decode_witness :
    String_.from_bytes (String_.into_bytes [104, 105]) = .ok [104, 105] ∧
    String_.from_bytes [0x80] = .error .malformedText := by
  constructor
  · exact (claim8_string_decode [] [104, 105]).1 (by decide)
  · refine (claim8_string_decode [0x80] []).2.2 ?_
    intro s2 hwf henc
    have h1 := (claim8_string_decode [0x80] s2).1 hwf
    rw [henc] at h1
    have h2 : String_.from_bytes [0x80] = .error .malformedText := rfl
    rw [h2] at h1
    exact Except.noConfusion h1
